import Mathlib

/-!
Verification of the real-time chat core of the meeting platform
(src/backend/chat_service/app.py): the bounded Redis history cache with
durable fallback, the in-memory connection registry, the pub/sub bridge
for meeting events, and the socket event handlers.
-/

namespace MeetingChat

/-! Association-list maps with Python-dict semantics: unique keys kept in
insertion order, lookup finds the first matching key. -/

def alLookup {κ β : Type} [DecidableEq κ] (k : κ) : List (κ × β) → Option β
  | [] => none
  | p :: l => if p.1 = k then some p.2 else alLookup k l

def alInsert {κ β : Type} [DecidableEq κ] (k : κ) (v : β) : List (κ × β) → List (κ × β)
  | [] => [(k, v)]
  | p :: l => if p.1 = k then (k, v) :: l else p :: alInsert k v l

def alErase {κ β : Type} [DecidableEq κ] (k : κ) (l : List (κ × β)) : List (κ × β) :=
  l.filter (fun p => p.1 ≠ k)

/-- JSON value held by the user_id field of a serialized message: an
integer for authenticated users, a string for guest ids, or None. -/
inductive UV : Type
  | inum (n : Nat)
  | istr (s : String)
  | inull
deriving DecidableEq

/-- A chat message dictionary as produced by ChatMessage.to_dict.
Timestamps are modelled by their epoch value, which the service computes
from the ISO string and uses as the Redis sorted-set score; the fixed
isoformat encoding the service emits is order-isomorphic to it. -/
structure MsgDict : Type where
  id : Nat
  meeting_id : Nat
  user_id : UV
  user_name : String
  content : String
  timestamp : Nat
deriving DecidableEq

/-- Stand-in for json.dumps of a message dict, the Redis sorted-set member
string; only its roles as zadd dedup key and rank tie-break matter here. -/
def serializeMsg (m : MsgDict) : String :=
  toString m.id ++ "|" ++ toString m.meeting_id ++ "|" ++ m.user_name ++ "|" ++
    m.content ++ "|" ++ toString m.timestamp

/-- Redis sorted-set rank order: by score (the message timestamp), ties
broken by the member string. -/
def zLeB (a b : MsgDict) : Bool :=
  a.timestamp < b.timestamp ||
    (a.timestamp == b.timestamp && decide (serializeMsg a ≤ serializeMsg b))

def zinsert (m : MsgDict) : List MsgDict → List MsgDict
  | [] => [m]
  | x :: xs => if zLeB m x then m :: x :: xs else x :: zinsert m xs

/-- Effect of store_message_in_redis on the room history sorted set: zadd
with score = timestamp (replacing an identical member), then
zremrangebyrank 0 -501, keeping the newest 500. The per-user mirror set
and the TTL refreshes touch keys no claim reads and are not modelled. -/
def store_message_in_redis (cache : List MsgDict) (m : MsgDict) : List MsgDict :=
  let inserted := zinsert m (cache.filter (fun x => x ≠ m))
  inserted.drop (inserted.length - 500)

/-- Python slice l[-n:]. For n = 0 this is the whole list, because -0 = 0;
the same convention applies to the Redis start index -n of zrange. -/
def pySliceLast {α : Type} (n : Nat) (l : List α) : List α :=
  if n = 0 then l else l.drop (l.length - n)

/-- get_chat_history: zrange chat:history:room -limit -1, i.e. the last
limit members of the sorted set, oldest first, newest last. -/
def get_chat_history (cache : List MsgDict) (limit : Nat) : List MsgDict :=
  pySliceLast limit cache

/-- Python sorted with key = the message timestamp, as in
sorted(messages, key=lambda x: x.get('timestamp', '')); a stable sort. -/
def sortByTs (l : List MsgDict) : List MsgDict :=
  List.insertionSort (fun a b => a.timestamp ≤ b.timestamp) l

def groupInsert (k : UV) (m : MsgDict) :
    List (UV × List MsgDict) → List (UV × List MsgDict)
  | [] => [(k, [m])]
  | p :: l => if p.1 = k then (p.1, p.2 ++ [m]) :: l else p :: groupInsert k m l

/-- Step 3 of get_chat_history_with_user_limit: the insertion-ordered dict
user_messages, appending each message to its sender's bucket. The bucket
key is the dict's user_id value; serialized messages always carry that
key, so the absent-key default never fires. -/
def groupByUser (l : List MsgDict) : List (UV × List MsgDict) :=
  l.foldl (fun acc m => groupInsert m.user_id m acc) []

/-- get_chat_history_with_user_limit: working set = the last 1000 cached
messages, grouped by sender, each sender cut to its most recent
per_user_limit, merged in dict order, sorted by timestamp, and cut to the
most recent global_limit when that is exceeded. -/
def get_chat_history_with_user_limit (cache : List MsgDict)
    (global_limit per_user_limit : Nat) : List MsgDict :=
  let all_messages := cache.drop (cache.length - 1000)
  let limited := (groupByUser all_messages).foldl
    (fun acc p => acc ++ pySliceLast per_user_limit (sortByTs p.2)) []
  let sortedL := sortByTs limited
  if global_limit < sortedL.length then pySliceLast global_limit sortedL else sortedL

structure HistoryResult : Type where
  response : List MsgDict
  newCache : List MsgDict
deriving DecidableEq

/-- Body of the GET /api/v1/chat/history/meeting_id handler (JWT decoding
and the non-numeric-meeting-id 400 path fall outside the claims): Redis
read, and when it yields nothing, the database fallback query ordered by
timestamp ascending limited to limit rows, each fallback row re-cached
through store_message_in_redis. -/
def get_meeting_chat_history (cache dbRows : List MsgDict)
    (limit per_user_limit : Nat) : HistoryResult :=
  let messages :=
    if 0 < per_user_limit then get_chat_history_with_user_limit cache limit per_user_limit
    else get_chat_history cache limit
  if messages = [] then
    let dbMsgs := (sortByTs dbRows).take limit
    ⟨dbMsgs, dbMsgs.foldl store_message_in_redis cache⟩
  else ⟨messages, cache⟩

/-- Modelled from the spec: the most recent limit messages by timestamp
(zero messages when limit is 0), the selection the claim says the
retrieval returns. Used only to compare the code against the claim's
words. -/
def mostRecentByTs (rows : List MsgDict) (limit : Nat) : List MsgDict :=
  (sortByTs rows).drop ((sortByTs rows).length - limit)

/-! Connection registry: the module-level dicts user_sid_map (identity to
list of socket ids) and sid_user_map (socket id to identity). -/

abbrev USMap : Type := List (String × List String)

abbrev SUMap : Type := List (String × String)

structure RegState : Type where
  usm : USMap
  sum : SUMap
deriving DecidableEq

/-- Registration step of handle_connect after a token decodes to user_id:
guarded by the truthiness check on user_id (an empty identity registers
nothing), it appends the socket id to the identity's list and sets the
reverse entry. -/
def register (st : RegState) (user_id sid : String) : RegState :=
  if user_id = "" then st
  else
    ⟨alInsert user_id (((alLookup user_id st.usm).getD []) ++ [sid]) st.usm,
     alInsert sid user_id st.sum⟩

/-- handle_disconnect: when the socket id is known, remove it from its
identity's list (Python list.remove drops the first occurrence; in the
states these handlers reach the element is present), drop the identity
entry when its list empties, and delete the reverse entry. -/
def unregister (st : RegState) (sid : String) : RegState :=
  match alLookup sid st.sum with
  | none => st
  | some user_id =>
    let sum2 := alErase sid st.sum
    match alLookup user_id st.usm with
    | none => ⟨st.usm, sum2⟩
    | some lst =>
      let lst2 := lst.erase sid
      ⟨if lst2 = [] then alErase user_id st.usm else alInsert user_id lst2 st.usm, sum2⟩

inductive RegOp : Type
  | reg (user_id sid : String)
  | unreg (sid : String)

def runOps : RegState → List RegOp → RegState
  | st, [] => st
  | st, RegOp.reg u s :: rest => runOps (register st u s) rest
  | st, RegOp.unreg s :: rest => runOps (unregister st s) rest

/-- Freshness of a run: every register call presents a connection that is
not currently registered, which is how the transport layer behaves (socket
ids are fresh per connection and registered once). -/
def FreshOps : RegState → List RegOp → Prop
  | _, [] => True
  | st, RegOp.reg u s :: rest => alLookup s st.sum = none ∧ FreshOps (register st u s) rest
  | st, RegOp.unreg s :: rest => FreshOps (unregister st s) rest

/-- The spec's registry invariant: a connection maps to an identity in
sid_user_map iff that identity's user_sid_map list contains it. -/
def RegSymm (st : RegState) : Prop :=
  ∀ s u, alLookup s st.sum = some u ↔ ∃ lst, alLookup u st.usm = some lst ∧ s ∈ lst

/-! Event bridge: handle_redis_message. -/

inductive EmitTarget : Type
  | room (name : String)
  | conn (sid : String)
deriving DecidableEq

structure BridgeEmit : Type where
  target : EmitTarget
  status : Option String
deriving DecidableEq

/-- The meeting_deleted branch of handle_redis_message: broadcast the
deleted notification to the meeting room, then push it to every registered
socket of every listed participant id (ids stringified before lookup). -/
def meetingDeletedEmits (usm : USMap) (room_name : String)
    (participant_ids : List String) : List BridgeEmit :=
  ⟨EmitTarget.room room_name, some "deleted"⟩ ::
    participant_ids.foldl
      (fun acc pid =>
        acc ++ (match alLookup pid usm with
                | some sids => sids.map (fun s => ⟨EmitTarget.conn s, some "deleted"⟩)
                | none => []))
      []

/-- Modelled from the spec: the claim's targeting rule for meeting_deleted,
where direct pushes reach only listed participants who are not currently in
the room; roomSids is the transport-level membership of the meeting room,
and a participant counts as present when any of their sockets is in it. -/
def meetingDeletedSpecEmits (usm : USMap) (room_name : String)
    (participant_ids roomSids : List String) : List BridgeEmit :=
  ⟨EmitTarget.room room_name, some "deleted"⟩ ::
    participant_ids.foldl
      (fun acc pid =>
        acc ++ (match alLookup pid usm with
                | some sids =>
                  if sids.any (fun s => roomSids.contains s) then []
                  else sids.map (fun s => ⟨EmitTarget.conn s, some "deleted"⟩)
                | none => []))
      []

/-! Identity strings: the guest marker and Python int conversion. -/

def charsHavePre : List Char → List Char → Bool
  | [], _ => true
  | _ :: _, [] => false
  | c :: cs, d :: ds => c == d && charsHavePre cs ds

/-- The guest test active_user_id.startswith of the marker guest_. -/
def startsWithGuest (s : String) : Bool := charsHavePre "guest_".data s.data

def pyAllDigits : List Char → Bool
  | [] => true
  | c :: cs => c.isDigit && pyAllDigits cs

def pyDigitsVal : List Char → Nat → Nat
  | [], acc => acc
  | c :: cs, acc => pyDigitsVal cs (acc * 10 + (c.toNat - 48))

/-- Python int(s) on the id strings this service handles: succeeds exactly
on nonempty digit strings (signs and surrounding whitespace, which the
service never produces in ids, are not modelled); none models the raised
ValueError. -/
def pyInt? (s : String) : Option Nat :=
  if s.data ≠ [] ∧ pyAllDigits s.data then some (pyDigitsVal s.data 0) else none

/-- The transport-derived fallback identity temp_user_ followed by the
socket id. -/
def tempUser (sid : String) : String := "temp_user_" ++ sid

/-! The chat_message handler and message persistence. -/

/-- A chat_messages row as constructed by handle_chat_message: id and
timestamp are database-assigned and are supplied where the row is
serialized. -/
structure ChatRow : Type where
  meeting_id : Nat
  user_id : Option Nat
  guest_user_id : Option String
  user_name : String
  content : String
deriving DecidableEq

def uvOfUid : Option Nat → UV
  | some n => UV.inum n
  | none => UV.inull

/-- The user_id field of ChatMessage.to_dict: the guest id if the
guest_user_id column is truthy, else the numeric column; note the Python
truthiness, under which an empty guest string falls through. -/
def rowDictUserId (r : ChatRow) : UV :=
  match r.guest_user_id with
  | some g => if g = "" then uvOfUid r.user_id else UV.istr g
  | none => uvOfUid r.user_id

/-- ChatMessage.to_dict with the database-assigned id and timestamp. -/
def rowToDict (rid now : Nat) (r : ChatRow) : MsgDict :=
  ⟨rid, r.meeting_id, rowDictUserId r, r.user_name, r.content, now⟩

inductive ChatEmit : Type
  | chatMessage (room : String) (payload : MsgDict) (authenticated : Bool)
  | messageError (sid err : String)
deriving DecidableEq

structure ChatOutcome : Type where
  emits : List ChatEmit
  persisted : Option ChatRow
  newCache : List MsgDict
deriving DecidableEq

/-- Identity resolution shared by the join, leave and chat_message
handlers: the authenticated identity when the socket has one (Python
truthiness, so an empty stored identity also falls through), else the
payload-supplied user_id, else the temp_user fallback. -/
def resolveActiveUser (sum : SUMap) (sid : String) (data_user_id : Option String) : String :=
  let authUid := (alLookup sid sum).getD ""
  if authUid ≠ "" then authUid
  else if data_user_id.getD "" ≠ "" then data_user_id.getD "" else tempUser sid

/-- Row construction inside handle_chat_message's try block: guest ids are
kept in guest_user_id next to the placeholder user_id 1; other identities
go through Python int, whose ValueError is the caught failure, as is the
int of the room id; none models the raised exception. -/
def buildChatRow (room active_user_id user_name content : String) : Option ChatRow :=
  match pyInt? room with
  | none => none
  | some mid =>
    if startsWithGuest active_user_id then
      some ⟨mid, some 1, some active_user_id, user_name, content⟩
    else
      match pyInt? active_user_id with
      | none => none
      | some uid => some ⟨mid, some uid, none, user_name, content⟩

/-- handle_chat_message: identity resolution, the missing room-or-content
error path, row construction, the commit (an external database failure is
modelled by commitOk = false; every failure rolls the session back,
persists nothing and answers message_error to the sending socket only),
then the Redis mirror of the serialized row and the room broadcast (the
transient authenticated flag the code merges into the emitted dict is
carried on the emit). -/
def handle_chat_message (sum : SUMap) (sid : String)
    (meeting_id message_text data_user_id data_user_name : Option String)
    (commitOk : Bool) (rid now : Nat) (cache : List MsgDict) : ChatOutcome :=
  let active_user_id := resolveActiveUser sum sid data_user_id
  let user_name := data_user_name.getD "Guest"
  let room := meeting_id.getD ""
  let content := message_text.getD ""
  if room = "" ∨ content = "" then
    ⟨[ChatEmit.messageError sid "Missing room or message content"], none, cache⟩
  else
    match buildChatRow room active_user_id user_name content with
    | none => ⟨[ChatEmit.messageError sid "Failed to save message"], none, cache⟩
    | some row =>
      if commitOk then
        let md := rowToDict rid now row
        ⟨[ChatEmit.chatMessage room md (alLookup sid sum).isSome], some row,
          store_message_in_redis cache md⟩
      else ⟨[ChatEmit.messageError sid "Failed to save message"], none, cache⟩

/-! The meeting_update handler. -/

inductive UpdEmit : Type
  | updateError (sid : String)
  | meetingUpdate (target : EmitTarget)
deriving DecidableEq

/-- handle_meeting_update: authenticated identities only (update_error back
to the sender otherwise), update_error on a missing meeting_id, then
either a direct push to the target user's sockets through send_to_user
(with a room broadcast fallback when the target is not registered) or a
room broadcast when no target user is named. -/
def handle_meeting_update (sum : SUMap) (usm : USMap) (sid : String)
    (meeting_id target_user_id : Option String) : List UpdEmit :=
  if (alLookup sid sum).getD "" = "" then [UpdEmit.updateError sid]
  else
    match meeting_id with
    | none => [UpdEmit.updateError sid]
    | some mid =>
      if mid = "" then [UpdEmit.updateError sid]
      else
        let tgt := target_user_id.getD ""
        if tgt ≠ "" then
          match alLookup tgt usm with
          | some sids => sids.map (fun s => UpdEmit.meetingUpdate (EmitTarget.conn s))
          | none => [UpdEmit.meetingUpdate (EmitTarget.room mid)]
        else [UpdEmit.meetingUpdate (EmitTarget.room mid)]

/-! Auxiliary predicates and concrete messages used in the proofs. -/

/-- Well-formedness of the user_messages dict: keys are distinct and every
bucket holds exactly messages of its key's sender. -/
def GroupOK (gs : List (UV × List MsgDict)) : Prop :=
  (gs.map Prod.fst).Nodup ∧ ∀ p ∈ gs, ∀ x ∈ p.2, x.user_id = p.1

/-- Registry invariant carried through runs: symmetry plus duplicate-free
connection lists. -/
def RegInv (st : RegState) : Prop :=
  RegSymm st ∧ ∀ u lst, alLookup u st.usm = some lst → lst.Nodup

instance : IsTotal MsgDict (fun a b => a.timestamp ≤ b.timestamp) :=
  ⟨fun a b => Nat.le_total a.timestamp b.timestamp⟩

instance : IsTrans MsgDict (fun a b => a.timestamp ≤ b.timestamp) :=
  ⟨fun _ _ _ h1 h2 => Nat.le_trans h1 h2⟩

def msgA : MsgDict := ⟨1, 42, UV.inum 1, "A", "hi", 10⟩

def msgB : MsgDict := ⟨2, 42, UV.inum 2, "B", "yo", 5⟩

def dbM1 : MsgDict := ⟨1, 7, UV.inum 1, "A", "first", 1⟩

def dbM2 : MsgDict := ⟨2, 7, UV.inum 1, "A", "second", 2⟩

def wit1 : MsgDict := ⟨1, 7, UV.istr "g", "G", "m1", 1⟩

def wit2 : MsgDict := ⟨2, 7, UV.istr "g", "G", "m2", 2⟩

def wit3 : MsgDict := ⟨3, 7, UV.istr "g", "G", "m3", 3⟩

/-! Association-list lemmas. -/

theorem alLookup_insert_self {κ β : Type} [DecidableEq κ] (k : κ) (v : β)
    (l : List (κ × β)) : alLookup k (alInsert k v l) = some v := by
  induction l with
  | nil => simp [alInsert, alLookup]
  | cons p t ih =>
    by_cases h : p.1 = k
    · simp [alInsert, h, alLookup]
    · simp [alInsert, h, alLookup, ih]

theorem alLookup_insert_ne {κ β : Type} [DecidableEq κ] {k k2 : κ} (v : β)
    (l : List (κ × β)) (h : k2 ≠ k) :
    alLookup k2 (alInsert k v l) = alLookup k2 l := by
  induction l with
  | nil => simp [alInsert, alLookup, Ne.symm h]
  | cons p t ih =>
    by_cases hp : p.1 = k
    · subst hp
      simp [alInsert, alLookup, Ne.symm h]
    · simp only [alInsert, if_neg hp]
      by_cases hp2 : p.1 = k2
      · simp [alLookup, hp2]
      · simp [alLookup, hp2, ih]

theorem alErase_cons_drop {κ β : Type} [DecidableEq κ] {k : κ} (p : κ × β)
    (t : List (κ × β)) (h : p.1 = k) : alErase k (p :: t) = alErase k t := by
  simp [alErase, List.filter_cons, h]

theorem alErase_cons_keep {κ β : Type} [DecidableEq κ] {k : κ} (p : κ × β)
    (t : List (κ × β)) (h : p.1 ≠ k) : alErase k (p :: t) = p :: alErase k t := by
  simp [alErase, List.filter_cons, h]

theorem alLookup_erase_self {κ β : Type} [DecidableEq κ] (k : κ)
    (l : List (κ × β)) : alLookup k (alErase k l) = none := by
  induction l with
  | nil => simp [alErase, alLookup]
  | cons p t ih =>
    by_cases h : p.1 = k
    · rw [alErase_cons_drop p t h]; exact ih
    · rw [alErase_cons_keep p t h]; simp [alLookup, h, ih]

theorem alLookup_erase_ne {κ β : Type} [DecidableEq κ] {k k2 : κ}
    (l : List (κ × β)) (h : k2 ≠ k) :
    alLookup k2 (alErase k l) = alLookup k2 l := by
  induction l with
  | nil => simp [alErase]
  | cons p t ih =>
    by_cases hp : p.1 = k
    · have hp2 : p.1 ≠ k2 := by rw [hp]; exact Ne.symm h
      rw [alErase_cons_drop p t hp]
      simp [alLookup, hp2, ih]
    · rw [alErase_cons_keep p t hp]
      simp only [alLookup]
      rw [ih]

theorem alInsert_idem {κ β : Type} [DecidableEq κ] (k : κ) (v : β)
    (l : List (κ × β)) : alInsert k v (alInsert k v l) = alInsert k v l := by
  induction l with
  | nil => simp [alInsert]
  | cons p t ih =>
    by_cases h : p.1 = k
    · simp [alInsert, h]
    · simp [alInsert, h, ih]

theorem foldl_append_init {α β : Type} (f : β → List α) (l : List β) :
    ∀ init : List α, l.foldl (fun acc b => acc ++ f b) init = init ++ l.flatMap f := by
  induction l with
  | nil => intro init; simp
  | cons b t ih =>
    intro init
    simp only [List.foldl_cons, List.flatMap_cons]
    rw [ih]
    simp [List.append_assoc]

/-! Claim C8. -/

/-- Claim C8: a meeting_update event from a connection whose identity is
not registered as authenticated yields exactly one update_error emit to
that connection, and no broadcast to any room or other connection. -/
theorem c8_meeting_update_unauthenticated (sum : SUMap) (usm : USMap)
    (sid : String) (meeting_id target_user_id : Option String)
    (h : alLookup sid sum = none) :
    handle_meeting_update sum usm sid meeting_id target_user_id
      = [UpdEmit.updateError sid] := by
  simp [handle_meeting_update, h]

/-- Instance of claim C8 at a concrete unauthenticated connection. -/
theorem c8_meeting_update_unauthenticated_witness :
    alLookup "s1" ([] : SUMap) = none ∧
      handle_meeting_update [] [("7", ["s7"])] "s1" (some "42") none
        = [UpdEmit.updateError "s1"] :=
  ⟨rfl, c8_meeting_update_unauthenticated [] [("7", ["s7"])] "s1" (some "42") none rfl⟩

/-! Claim C7. -/

/-- Claim C7: in handle_chat_message, a persistence failure rolls back
(nothing persisted, cache untouched) and answers a single message_error to
the sending connection with no chat_message broadcast; a missing meeting_id
or missing message content likewise yields only a message_error to the
sender, with nothing persisted or broadcast. -/
theorem c7_chat_message_failure_scoped (sum : SUMap) (sid : String)
    (meeting_id message_text data_user_id data_user_name : Option String)
    (rid now : Nat) (cache : List MsgDict) :
    (∀ r c, meeting_id = some r → r ≠ "" → message_text = some c → c ≠ "" →
      handle_chat_message sum sid meeting_id message_text data_user_id data_user_name
          false rid now cache
        = ⟨[ChatEmit.messageError sid "Failed to save message"], none, cache⟩) ∧
    (∀ commitOk, (meeting_id = none ∨ meeting_id = some "" ∨
        message_text = none ∨ message_text = some "") →
      handle_chat_message sum sid meeting_id message_text data_user_id data_user_name
          commitOk rid now cache
        = ⟨[ChatEmit.messageError sid "Missing room or message content"], none, cache⟩) := by
  constructor
  · rintro r c rfl hr rfl hc
    simp only [handle_chat_message, Option.getD_some]
    rw [if_neg (by simp [hr, hc])]
    split
    · rfl
    · rfl
  · rintro commitOk (rfl | rfl | rfl | rfl) <;>
      simp [handle_chat_message]

/-- Instance of claim C7 at concrete inputs: a failed commit, and a missing
meeting_id. -/
theorem c7_chat_message_failure_scoped_witness :
    handle_chat_message [] "sA" (some "1") (some "hi") none none false 7 9 []
        = ⟨[ChatEmit.messageError "sA" "Failed to save message"], none, []⟩ ∧
    handle_chat_message [] "sA" none (some "hi") none none true 7 9 []
        = ⟨[ChatEmit.messageError "sA" "Missing room or message content"], none, []⟩ :=
  ⟨(c7_chat_message_failure_scoped [] "sA" (some "1") (some "hi") none none 7 9 []).1
      "1" "hi" rfl (by decide) rfl (by decide),
    (c7_chat_message_failure_scoped [] "sA" none (some "hi") none none 7 9 []).2
      true (Or.inl rfl)⟩

/-! Claim C4. -/

/-- Claim C4 counterexample: registering the same identity-connection pair
twice from the empty registry does not leave the registry in the state of
a single registration; the connection list holds the socket id twice. -/
theorem c4_register_not_idempotent_cex :
    register (register ⟨[], []⟩ "u" "s") "u" "s" ≠ register ⟨[], []⟩ "u" "s" := by
  decide

/-- Claim C4 amended: duplicate registration is not a no-op join; the
second register of the same pair appends a second copy of the connection
to the identity's connection list, while the reverse map is unchanged; no
error is raised (the operation is total). -/
theorem c4_register_duplicate_appends (st : RegState) (u s : String) (hu : u ≠ "") :
    alLookup u (register (register st u s) u s).usm
        = some ((((alLookup u st.usm).getD []) ++ [s]) ++ [s]) ∧
    (register (register st u s) u s).sum = (register st u s).sum := by
  constructor
  · simp [register, hu, alLookup_insert_self]
  · simp [register, hu, alInsert_idem]

/-- Instance of claim C4 amended at a concrete pair. -/
theorem c4_register_duplicate_appends_witness :
    ("u" ≠ "") ∧
      (alLookup "u" (register (register ⟨[], []⟩ "u" "s") "u" "s").usm
          = some ((((alLookup "u" (RegState.mk [] []).usm).getD []) ++ ["s"]) ++ ["s"]) ∧
        (register (register ⟨[], []⟩ "u" "s") "u" "s").sum
          = (register ⟨[], []⟩ "u" "s").sum) :=
  ⟨by decide, c4_register_duplicate_appends ⟨[], []⟩ "u" "s" (by decide)⟩

/-! Claim C3. -/

/-- Claim C3 counterexample: one listed participant, registered on socket
s7 which is inside the meeting room: the code still direct-pushes the
deleted notification to s7, while the claim's targeting rule (direct push
only to participants not currently in the room) sends no direct push. -/
theorem c3_meeting_deleted_in_room_cex :
    meetingDeletedEmits [("7", ["s7"])] "42" ["7"]
      ≠ meetingDeletedSpecEmits [("7", ["s7"])] "42" ["7"] ["s7"] := by
  decide

/-- Claim C3 amended: the deleted notification is broadcast to the room
and direct-pushed, with the same status deleted, to every registered
socket of every listed participant, whether or not that participant is
currently in the room, and to nobody else. -/
theorem c3_meeting_deleted_pushes (usm : USMap) (rm : String) (pids : List String) :
    meetingDeletedEmits usm rm pids
      = ⟨EmitTarget.room rm, some "deleted"⟩ ::
          pids.flatMap (fun pid => ((alLookup pid usm).getD []).map
            (fun s => ⟨EmitTarget.conn s, some "deleted"⟩)) ∧
    ∀ e ∈ meetingDeletedEmits usm rm pids, e.status = some "deleted" := by
  have hfun : (fun (acc : List BridgeEmit) pid =>
      acc ++ (match alLookup pid usm with
              | some sids => sids.map (fun s => ⟨EmitTarget.conn s, some "deleted"⟩)
              | none => []))
      = fun acc pid => acc ++ ((alLookup pid usm).getD []).map
          (fun s => (⟨EmitTarget.conn s, some "deleted"⟩ : BridgeEmit)) := by
    funext acc pid
    cases alLookup pid usm <;> rfl
  have h1 : meetingDeletedEmits usm rm pids
      = ⟨EmitTarget.room rm, some "deleted"⟩ ::
          pids.flatMap (fun pid => ((alLookup pid usm).getD []).map
            (fun s => ⟨EmitTarget.conn s, some "deleted"⟩)) := by
    unfold meetingDeletedEmits
    rw [hfun]
    rw [foldl_append_init (fun pid => ((alLookup pid usm).getD []).map
      (fun s => (⟨EmitTarget.conn s, some "deleted"⟩ : BridgeEmit))) pids []]
    rfl
  refine ⟨h1, ?_⟩
  intro e he
  rw [h1] at he
  rcases List.mem_cons.mp he with rfl | he
  · rfl
  · simp only [List.mem_flatMap, List.mem_map] at he
    obtain ⟨pid, _, s, _, rfl⟩ := he
    rfl

/-! Claim C5: the registry invariant. -/

theorem register_usm (st : RegState) (u s : String) (hu : u ≠ "") :
    (register st u s).usm = alInsert u (((alLookup u st.usm).getD []) ++ [s]) st.usm := by
  simp [register, hu]

theorem register_sum (st : RegState) (u s : String) (hu : u ≠ "") :
    (register st u s).sum = alInsert s u st.sum := by
  simp [register, hu]

theorem unregister_of_none (st : RegState) (s : String)
    (h : alLookup s st.sum = none) : unregister st s = st := by
  simp [unregister, h]

theorem unregister_eq (st : RegState) (s u : String) (lst : List String)
    (h1 : alLookup s st.sum = some u) (h2 : alLookup u st.usm = some lst) :
    unregister st s =
      ⟨if lst.erase s = [] then alErase u st.usm else alInsert u (lst.erase s) st.usm,
       alErase s st.sum⟩ := by
  simp [unregister, h1, h2]

theorem regInv_empty : RegInv ⟨[], []⟩ := by
  constructor
  · intro s u
    constructor
    · intro h
      simp [alLookup] at h
    · intro h
      obtain ⟨lst, hl, _⟩ := h
      simp [alLookup] at hl
  · intro u lst hl
    simp [alLookup] at hl

theorem register_preserves (st : RegState) (u s : String) (h : RegInv st)
    (hf : alLookup s st.sum = none) : RegInv (register st u s) := by
  by_cases hu : u = ""
  · simpa [register, hu] using h
  · have hSany : ∀ u2 lst, alLookup u2 st.usm = some lst → s ∉ lst := by
      intro u2 lst hl hm
      have hx := (h.1 s u2).mpr ⟨lst, hl, hm⟩
      rw [hf] at hx
      exact Option.noConfusion hx
    constructor
    · intro s2 u2
      rw [register_sum st u s hu, register_usm st u s hu]
      by_cases hs2 : s2 = s
      · subst hs2
        by_cases hu2 : u2 = u
        · subst hu2
          rw [alLookup_insert_self, alLookup_insert_self]
          constructor
          · intro _
            exact ⟨_, rfl, by simp⟩
          · intro _
            rfl
        · rw [alLookup_insert_self, alLookup_insert_ne _ _ hu2]
          constructor
          · intro hh
            exact absurd (Option.some.inj hh).symm hu2
          · intro hh
            obtain ⟨lst, hl, hm⟩ := hh
            exact absurd hm (hSany u2 lst hl)
      · rw [alLookup_insert_ne _ _ hs2]
        by_cases hu2 : u2 = u
        · subst hu2
          rw [alLookup_insert_self]
          constructor
          · intro hh
            obtain ⟨lst, hl, hm⟩ := (h.1 s2 u2).mp hh
            refine ⟨((alLookup u2 st.usm).getD []) ++ [s], rfl, ?_⟩
            rw [hl]
            simp only [Option.getD_some, List.mem_append]
            exact Or.inl hm
          · intro hh
            obtain ⟨lst, hl, hm⟩ := hh
            obtain rfl := (Option.some.inj hl).symm
            rcases List.mem_append.mp hm with hm2 | hm2
            · cases husm : alLookup u2 st.usm with
              | none =>
                rw [husm] at hm2
                simp at hm2
              | some l0 =>
                rw [husm] at hm2
                exact (h.1 s2 u2).mpr ⟨l0, husm, by simpa using hm2⟩
            · simp at hm2
              exact absurd hm2 hs2
        · rw [alLookup_insert_ne _ _ hu2]
          exact h.1 s2 u2
    · intro u2 lst hl
      rw [register_usm st u s hu] at hl
      by_cases hu2 : u2 = u
      · subst hu2
        rw [alLookup_insert_self] at hl
        obtain rfl := (Option.some.inj hl).symm
        cases husm : alLookup u2 st.usm with
        | none =>
          simp
        | some l0 =>
          have hnodup := h.2 u2 l0 husm
          have hnotin : s ∉ l0 := hSany u2 l0 husm
          simp [List.nodup_append, hnodup, hnotin]
      · rw [alLookup_insert_ne _ _ hu2] at hl
        exact h.2 u2 lst hl

theorem unregister_preserves (st : RegState) (s : String) (h : RegInv st) :
    RegInv (unregister st s) := by
  cases hsu : alLookup s st.sum with
  | none =>
    rw [unregister_of_none st s hsu]
    exact h
  | some u =>
    obtain ⟨lst, hul, hmem⟩ := (h.1 s u).mp hsu
    have hnd : lst.Nodup := h.2 u lst hul
    rw [unregister_eq st s u lst hsu hul]
    by_cases hl2 : lst.erase s = []
    · have hall : ∀ x ∈ lst, x = s := by
        intro x hx
        by_contra hne
        have hx2 : x ∈ lst.erase s := (List.mem_erase_of_ne hne).mpr hx
        rw [hl2] at hx2
        exact absurd hx2 (List.not_mem_nil x)
      rw [if_pos hl2]
      constructor
      · intro s2 u2
        by_cases hs2 : s2 = s
        · subst hs2
          rw [alLookup_erase_self]
          constructor
          · intro hh
            exact Option.noConfusion hh
          · intro hh
            obtain ⟨lst2, hlk, hm⟩ := hh
            by_cases hu2 : u2 = u
            · subst hu2
              rw [alLookup_erase_self] at hlk
              exact Option.noConfusion hlk
            · rw [alLookup_erase_ne _ hu2] at hlk
              have hx := (h.1 s2 u2).mpr ⟨lst2, hlk, hm⟩
              rw [hsu] at hx
              exact absurd (Option.some.inj hx).symm hu2
        · rw [alLookup_erase_ne _ hs2]
          constructor
          · intro hh
            obtain ⟨lst2, hlk, hm⟩ := (h.1 s2 u2).mp hh
            by_cases hu2 : u2 = u
            · subst hu2
              rw [hul] at hlk
              obtain rfl := Option.some.inj hlk
              exact absurd (hall s2 hm) hs2
            · exact ⟨lst2, by rw [alLookup_erase_ne _ hu2]; exact hlk, hm⟩
          · intro hh
            obtain ⟨lst2, hlk, hm⟩ := hh
            by_cases hu2 : u2 = u
            · subst hu2
              rw [alLookup_erase_self] at hlk
              exact Option.noConfusion hlk
            · rw [alLookup_erase_ne _ hu2] at hlk
              exact (h.1 s2 u2).mpr ⟨lst2, hlk, hm⟩
      · intro u2 lst2 hlk
        by_cases hu2 : u2 = u
        · subst hu2
          rw [alLookup_erase_self] at hlk
          exact Option.noConfusion hlk
        · rw [alLookup_erase_ne _ hu2] at hlk
          exact h.2 u2 lst2 hlk
    · rw [if_neg hl2]
      constructor
      · intro s2 u2
        by_cases hs2 : s2 = s
        · subst hs2
          rw [alLookup_erase_self]
          constructor
          · intro hh
            exact Option.noConfusion hh
          · intro hh
            obtain ⟨lst2, hlk, hm⟩ := hh
            by_cases hu2 : u2 = u
            · subst hu2
              rw [alLookup_insert_self] at hlk
              obtain rfl := Option.some.inj hlk
              exact absurd hm hnd.not_mem_erase
            · rw [alLookup_insert_ne _ _ hu2] at hlk
              have hx := (h.1 s2 u2).mpr ⟨lst2, hlk, hm⟩
              rw [hsu] at hx
              exact absurd (Option.some.inj hx).symm hu2
        · rw [alLookup_erase_ne _ hs2]
          by_cases hu2 : u2 = u
          · subst hu2
            rw [alLookup_insert_self]
            constructor
            · intro hh
              obtain ⟨lst2, hlk, hm⟩ := (h.1 s2 u2).mp hh
              rw [hul] at hlk
              obtain rfl := Option.some.inj hlk
              exact ⟨lst.erase s, rfl, (List.mem_erase_of_ne hs2).mpr hm⟩
            · intro hh
              obtain ⟨lst2, hlk, hm⟩ := hh
              obtain rfl := Option.some.inj hlk
              exact (h.1 s2 u2).mpr ⟨lst, hul, (List.mem_erase_of_ne hs2).mp hm⟩
          · rw [alLookup_insert_ne _ _ hu2]
            exact h.1 s2 u2
      · intro u2 lst2 hlk
        by_cases hu2 : u2 = u
        · subst hu2
          rw [alLookup_insert_self] at hlk
          obtain rfl := Option.some.inj hlk
          exact hnd.erase s
        · rw [alLookup_insert_ne _ _ hu2] at hlk
          exact h.2 u2 lst2 hlk

theorem runOps_inv (ops : List RegOp) :
    ∀ st : RegState, RegInv st → FreshOps st ops → RegInv (runOps st ops) := by
  induction ops with
  | nil =>
    intro st h _
    exact h
  | cons op rest ih =>
    intro st h hf
    cases op with
    | reg u s => exact ih _ (register_preserves st u s h hf.1) hf.2
    | unreg s => exact ih _ (unregister_preserves st s h) hf

/-- Claim C5 counterexample: registering the pair twice and unregistering
once leaves user_sid_map with the connection while sid_user_map is empty:
symmetry does not hold after every register/unregister sequence. -/
theorem c5_registry_symmetry_cex :
    ¬ RegSymm (runOps ⟨[], []⟩
        [RegOp.reg "u" "s", RegOp.reg "u" "s", RegOp.unreg "s"]) := by
  intro h
  have h2 := (h "s" "u").mpr ⟨["s"], by decide, by decide⟩
  exact absurd h2 (by decide)

/-- Claim C5 amended: after every register/unregister sequence from the
empty registry in which each register presents a connection that is not
currently registered (as the transport layer guarantees, socket ids being
fresh and registered once per connection), the maps are symmetric: a
connection maps to an identity iff that identity's connection list
contains it. -/
theorem c5_registry_symmetric_fresh (ops : List RegOp)
    (h : FreshOps ⟨[], []⟩ ops) : RegSymm (runOps ⟨[], []⟩ ops) :=
  (runOps_inv ops ⟨[], []⟩ regInv_empty h).1

/-- Instance of claim C5 amended on a concrete fresh run. -/
theorem c5_registry_symmetric_fresh_witness :
    FreshOps ⟨[], []⟩ [RegOp.reg "u" "s", RegOp.unreg "s"] ∧
      RegSymm (runOps ⟨[], []⟩ [RegOp.reg "u" "s", RegOp.unreg "s"]) :=
  ⟨⟨rfl, trivial⟩, c5_registry_symmetric_fresh _ ⟨rfl, trivial⟩⟩

/-! Claim C6: append then read back. -/

theorem zLeB_false_of_lt {m x : MsgDict} (h : x.timestamp < m.timestamp) :
    zLeB m x = false := by
  have h1 : ¬ (m.timestamp < x.timestamp) := by omega
  have h2 : ¬ (m.timestamp = x.timestamp) := by omega
  simp [zLeB, h1, h2]

theorem zinsert_of_all_lt {m : MsgDict} :
    ∀ l : List MsgDict, (∀ x ∈ l, x.timestamp < m.timestamp) → zinsert m l = l ++ [m] := by
  intro l
  induction l with
  | nil => intro _; rfl
  | cons x xs ih =>
    intro h
    have hx := zLeB_false_of_lt (h x (List.mem_cons_self x xs))
    simp only [zinsert]
    rw [if_neg (by simp [hx]), ih (fun y hy => h y (List.mem_cons_of_mem x hy))]
    rfl

/-- Claim C6 counterexample: a cache already holding a message with a later
timestamp: appending msgB (timestamp 5) after msgA (timestamp 10) and
requesting the most recent 1 returns msgA as the last element, not the
just-appended msgB. -/
theorem c6_append_then_recent_cex :
    (get_chat_history (store_message_in_redis [msgA] msgB) 1).getLast? = some msgA ∧
      msgA ≠ msgB := by
  constructor
  · decide
  · decide

/-- Claim C6 amended: when the appended message's timestamp is strictly
later than every cached message's (the normal live-append situation),
appending and then requesting the most recent N messages returns the
appended message as the last element, for any N of at least 1; with an
already-cached later timestamp this can fail, see the counterexample. -/
theorem c6_append_then_recent (cache : List MsgDict) (m : MsgDict) (N : Nat)
    (hN : 1 ≤ N) (hts : ∀ x ∈ cache, x.timestamp < m.timestamp) :
    (get_chat_history (store_message_in_redis cache m) N).getLast? = some m := by
  have hf : ∀ x ∈ cache.filter (fun x => x ≠ m), x.timestamp < m.timestamp :=
    fun x hx => hts x (List.mem_of_mem_filter hx)
  have hz : zinsert m (cache.filter (fun x => x ≠ m))
      = cache.filter (fun x => x ≠ m) ++ [m] := zinsert_of_all_lt _ hf
  simp only [store_message_in_redis]
  rw [hz]
  have hk : (cache.filter (fun x => x ≠ m) ++ [m]).length - 500
      ≤ (cache.filter (fun x => x ≠ m)).length := by
    simp only [List.length_append, List.length_cons, List.length_nil]
    omega
  rw [List.drop_append_of_le_length hk]
  simp only [get_chat_history, pySliceLast]
  rw [if_neg (by omega : ¬ N = 0)]
  have hk2 : ((cache.filter (fun x => x ≠ m)).drop
        ((cache.filter (fun x => x ≠ m) ++ [m]).length - 500) ++ [m]).length - N
      ≤ ((cache.filter (fun x => x ≠ m)).drop
        ((cache.filter (fun x => x ≠ m) ++ [m]).length - 500)).length := by
    simp only [List.length_append, List.length_cons, List.length_nil]
    omega
  rw [List.drop_append_of_le_length hk2]
  exact List.getLast?_concat _

/-- Instance of claim C6 amended: a strictly newer message appended on a
one-element cache. -/
theorem c6_append_then_recent_witness :
    msgB.timestamp < msgA.timestamp ∧
      (get_chat_history (store_message_in_redis [msgB] msgA) 1).getLast? = some msgA :=
  ⟨by decide, c6_append_then_recent [msgB] msgA 1 (by decide) (by decide)⟩

/-! Claim C2: history retrieval with per_sender_limit 0. -/

theorem get_chat_history_nil (limit : Nat) : get_chat_history [] limit = [] := by
  simp only [get_chat_history, pySliceLast]
  split
  · rfl
  · exact List.drop_nil

theorem get_chat_history_pos (cache : List MsgDict) {limit : Nat} (hl : 1 ≤ limit) :
    get_chat_history cache limit = cache.drop (cache.length - limit) := by
  simp only [get_chat_history, pySliceLast]
  rw [if_neg (by omega : ¬ limit = 0)]

theorem get_chat_history_ne_nil (cache : List MsgDict) (limit : Nat)
    (hl : 1 ≤ limit) (hc : cache ≠ []) : get_chat_history cache limit ≠ [] := by
  rw [get_chat_history_pos cache hl]
  intro hdrop
  have hlen := congrArg List.length hdrop
  rw [List.length_drop] at hlen
  have hc2 : 0 < cache.length := List.length_pos.mpr hc
  simp at hlen
  omega

/-- Claim C2 counterexample: two failures of the claim as stated, one per
regime of the limit. With an empty cache, two durable rows and limit 1,
the fallback returns the oldest row by timestamp, not the most recent
one. With a nonempty cache and limit 0, the cache path returns the entire
cache (the Redis start index -0 is 0), not the most recent zero
messages. -/
theorem c2_fallback_returns_oldest_cex :
    ((get_meeting_chat_history [] [dbM1, dbM2] 1 0).response = [dbM1] ∧
      mostRecentByTs [dbM1, dbM2] 1 = [dbM2] ∧ dbM1 ≠ dbM2) ∧
    ((get_meeting_chat_history [dbM1] [] 0 0).response = [dbM1] ∧
      mostRecentByTs [dbM1] 0 = []) := by
  exact ⟨⟨by decide, by decide, by decide⟩, by decide, by decide⟩

/-- Claim C2 amended: with per_sender_limit 0, for a positive limit a
nonempty cache answers with its last limit entries (the most recent by
timestamp, the cache being score-ordered) and is left untouched, while an
empty cache falls back to durable storage, returning the oldest limit
messages in ascending timestamp order (not the most recent ones), drawn
from the durable rows, and repopulates the cache with exactly those
messages; for limit 0 a nonempty cache answers with the entire cache (the
Redis start index -0 being 0), not with zero messages, and an empty cache
answers with the empty list and stays empty. -/
theorem c2_history_per_sender_zero (cache dbRows : List MsgDict) (limit : Nat) :
    (1 ≤ limit → cache ≠ [] →
      get_meeting_chat_history cache dbRows limit 0
        = ⟨cache.drop (cache.length - limit), cache⟩) ∧
    (1 ≤ limit → cache = [] →
      (get_meeting_chat_history cache dbRows limit 0).response
          = (sortByTs dbRows).take limit ∧
        (get_meeting_chat_history cache dbRows limit 0).newCache
          = ((sortByTs dbRows).take limit).foldl store_message_in_redis [] ∧
        (get_meeting_chat_history cache dbRows limit 0).response.Sorted
          (fun a b => a.timestamp ≤ b.timestamp) ∧
        ∀ x ∈ (get_meeting_chat_history cache dbRows limit 0).response, x ∈ dbRows) ∧
    (limit = 0 → cache ≠ [] →
      get_meeting_chat_history cache dbRows limit 0 = ⟨cache, cache⟩) ∧
    (limit = 0 → cache = [] →
      get_meeting_chat_history cache dbRows limit 0 = ⟨[], []⟩) := by
  refine ⟨?_, ?_, ?_, ?_⟩
  · intro hl hc
    have hne := get_chat_history_ne_nil cache limit hl hc
    simp only [get_meeting_chat_history]
    rw [if_neg (lt_irrefl 0), if_neg hne, get_chat_history_pos cache hl]
  · intro hl hc
    subst hc
    have h0 := get_chat_history_nil limit
    simp only [get_meeting_chat_history]
    rw [if_neg (lt_irrefl 0), h0, if_pos rfl]
    refine ⟨rfl, rfl, ?_, ?_⟩
    · have hs : (sortByTs dbRows).Sorted (fun a b => a.timestamp ≤ b.timestamp) :=
        List.sorted_insertionSort _ dbRows
      exact List.Pairwise.sublist (List.take_sublist limit _) hs
    · intro x hx
      have hx2 : x ∈ sortByTs dbRows := List.mem_of_mem_take hx
      exact (List.perm_insertionSort _ dbRows).subset hx2
  · intro h0 hc
    subst h0
    have hh : get_chat_history cache 0 = cache := by
      simp [get_chat_history, pySliceLast]
    simp only [get_meeting_chat_history]
    rw [if_neg (lt_irrefl 0), hh, if_neg hc]
  · intro h0 hc
    subst h0
    subst hc
    have hh := get_chat_history_nil 0
    simp only [get_meeting_chat_history]
    rw [if_neg (lt_irrefl 0), hh, if_pos rfl]
    rfl

/-- Instance of claim C2 amended: a one-element cache answered with limit
1 (cache suffix, cache unchanged) and with limit 0 (entire cache). -/
theorem c2_history_per_sender_zero_witness :
    (get_meeting_chat_history [dbM1] [] 1 0
        = ⟨[dbM1].drop ([dbM1].length - 1), [dbM1]⟩) ∧
      get_meeting_chat_history [dbM1] [] 0 0 = ⟨[dbM1], [dbM1]⟩ :=
  ⟨(c2_history_per_sender_zero [dbM1] [] 1).1 (by decide) (by decide),
    (c2_history_per_sender_zero [dbM1] [] 0).2.2.1 rfl (by decide)⟩

/-! Claims C9 and C10: the fallback identity and guest serialization. -/

theorem startsWithGuest_tempUser (sid : String) :
    startsWithGuest (tempUser sid) = false := by
  obtain ⟨l⟩ := sid
  rfl

theorem pyInt_tempUser (sid : String) : pyInt? (tempUser sid) = none := by
  obtain ⟨l⟩ := sid
  rfl

theorem startsWithGuest_ne_empty {g : String} (h : startsWithGuest g = true) :
    g ≠ "" := by
  intro he
  subst he
  exact absurd h (by decide)

theorem buildChatRow_tempUser (room un c sid : String) :
    buildChatRow room (tempUser sid) un c = none := by
  cases hp : pyInt? room with
  | none => simp [buildChatRow, hp]
  | some mid => simp [buildChatRow, hp, startsWithGuest_tempUser, pyInt_tempUser]

theorem buildChatRow_guest {room a un c : String} {row : ChatRow}
    (h : buildChatRow room a un c = some row) (g : String)
    (hg : row.guest_user_id = some g) : a = g ∧ startsWithGuest g = true := by
  simp only [buildChatRow] at h
  cases hp : pyInt? room with
  | none =>
    simp only [hp] at h
    exact Option.noConfusion h
  | some mid =>
    simp only [hp] at h
    by_cases hsg : startsWithGuest a
    · rw [if_pos hsg] at h
      obtain rfl := Option.some.inj h
      have hag : a = g := Option.some.inj hg
      exact ⟨hag, by rw [← hag]; exact hsg⟩
    · rw [if_neg hsg] at h
      cases hp2 : pyInt? a with
      | none =>
        simp only [hp2] at h
        exact Option.noConfusion h
      | some uid =>
        simp only [hp2] at h
        obtain rfl := Option.some.inj h
        exact Option.noConfusion hg

theorem resolveActiveUser_temp (sum : SUMap) (sid : String)
    {data_user_id : Option String} (hauth : alLookup sid sum = none)
    (hdu : data_user_id = none ∨ data_user_id = some "") :
    resolveActiveUser sum sid data_user_id = tempUser sid := by
  have h1 : (alLookup sid sum).getD "" = "" := by rw [hauth]; rfl
  have h2 : data_user_id.getD "" = "" := by rcases hdu with rfl | rfl <;> rfl
  simp [resolveActiveUser, h1, h2]

/-- Claim C9: a chat_message from an unauthenticated connection whose
payload supplies no user_id resolves to the fallback identity temp_user_
followed by the socket id, which is neither guest-prefixed nor numeric; so
nothing is ever persisted or broadcast: the session is rolled back (when
room and content are present the int conversion raises; otherwise the
missing-input check fires), the cache is untouched, and the only emit is a
message_error to the sender. -/
theorem c9_temp_user_never_persists (sum : SUMap) (sid : String)
    (meeting_id message_text data_user_id data_user_name : Option String)
    (commitOk : Bool) (rid now : Nat) (cache : List MsgDict)
    (hauth : alLookup sid sum = none)
    (hdu : data_user_id = none ∨ data_user_id = some "") :
    (handle_chat_message sum sid meeting_id message_text data_user_id data_user_name
        commitOk rid now cache).persisted = none ∧
    (handle_chat_message sum sid meeting_id message_text data_user_id data_user_name
        commitOk rid now cache).newCache = cache ∧
    ∃ err, (handle_chat_message sum sid meeting_id message_text data_user_id
        data_user_name commitOk rid now cache).emits
      = [ChatEmit.messageError sid err] := by
  have hres := resolveActiveUser_temp sum sid hauth hdu
  by_cases hm : meeting_id.getD "" = "" ∨ message_text.getD "" = ""
  · simp only [handle_chat_message]
    rw [if_pos hm]
    exact ⟨rfl, rfl, "Missing room or message content", rfl⟩
  · have hbuild := buildChatRow_tempUser (meeting_id.getD "")
      (data_user_name.getD "Guest") (message_text.getD "") sid
    simp only [handle_chat_message]
    rw [if_neg hm, hres, hbuild]
    exact ⟨rfl, rfl, "Failed to save message", rfl⟩

/-- Instance of claim C9 at a concrete unauthenticated sender with room
and content present. -/
theorem c9_temp_user_never_persists_witness :
    alLookup "s9" ([] : SUMap) = none ∧
      (handle_chat_message [] "s9" (some "1") (some "hi") none none true 1 2
          []).persisted = none ∧
      (handle_chat_message [] "s9" (some "1") (some "hi") none none true 1 2
          []).newCache = [] ∧
      (handle_chat_message [] "s9" (some "1") (some "hi") none none true 1 2
          []).emits = [ChatEmit.messageError "s9" "Failed to save message"] := by
  have H := c9_temp_user_never_persists [] "s9" (some "1") (some "hi") none none
    true 1 2 [] rfl (Or.inl rfl)
  exact ⟨rfl, H.1, H.2.1, by decide⟩

/-- Claim C10: whenever handle_chat_message persists a row whose
guest_user_id is set, the serialized form exposes the guest id string as
the user_id field, the room broadcast carries exactly that payload, and
the numeric placeholder user_id 1 stored in the row never appears as the
user_id of the emitted dict. -/
theorem c10_guest_user_id_exposed (sum : SUMap) (sid : String)
    (meeting_id message_text data_user_id data_user_name : Option String)
    (commitOk : Bool) (rid now : Nat) (cache : List MsgDict) (row : ChatRow)
    (g : String)
    (hp : (handle_chat_message sum sid meeting_id message_text data_user_id
        data_user_name commitOk rid now cache).persisted = some row)
    (hg : row.guest_user_id = some g) :
    rowDictUserId row = UV.istr g ∧
    (handle_chat_message sum sid meeting_id message_text data_user_id
        data_user_name commitOk rid now cache).emits
      = [ChatEmit.chatMessage (meeting_id.getD "") (rowToDict rid now row)
          (alLookup sid sum).isSome] ∧
    (rowToDict rid now row).user_id = UV.istr g ∧
    ∀ n : Nat, rowDictUserId row ≠ UV.inum n := by
  by_cases hm : meeting_id.getD "" = "" ∨ message_text.getD "" = ""
  · simp only [handle_chat_message] at hp
    rw [if_pos hm] at hp
    simp at hp
  · simp only [handle_chat_message] at hp
    rw [if_neg hm] at hp
    cases hb : buildChatRow (meeting_id.getD "") (resolveActiveUser sum sid data_user_id)
        (data_user_name.getD "Guest") (message_text.getD "") with
    | none =>
      rw [hb] at hp
      simp at hp
    | some row2 =>
      rw [hb] at hp
      cases commitOk with
      | false => simp at hp
      | true =>
        have hrow : row2 = row := by simpa using hp
        subst hrow
        obtain ⟨hag, hsg⟩ := buildChatRow_guest hb g hg
        have hgne : g ≠ "" := startsWithGuest_ne_empty hsg
        have hdict : rowDictUserId row2 = UV.istr g := by
          simp [rowDictUserId, hg, hgne]
        refine ⟨hdict, ?_, ?_, ?_⟩
        · simp only [handle_chat_message]
          rw [if_neg hm, hb]
          rfl
        · simp [rowToDict, hdict]
        · intro n hEq
          rw [hdict] at hEq
          exact UV.noConfusion hEq

/-- Instance of claim C10 at a concrete guest message that persists. -/
theorem c10_guest_user_id_exposed_witness :
    (handle_chat_message [] "sg" (some "5") (some "yo") (some "guest_9")
        (some "Bob") true 3 11 []).persisted
      = some ⟨5, some 1, some "guest_9", "Bob", "yo"⟩ ∧
    rowDictUserId ⟨5, some 1, some "guest_9", "Bob", "yo"⟩ = UV.istr "guest_9" ∧
    rowDictUserId ⟨5, some 1, some "guest_9", "Bob", "yo"⟩ ≠ UV.inum 1 := by
  have hp : (handle_chat_message [] "sg" (some "5") (some "yo") (some "guest_9")
      (some "Bob") true 3 11 []).persisted
        = some ⟨5, some 1, some "guest_9", "Bob", "yo"⟩ := by decide
  have H := c10_guest_user_id_exposed [] "sg" (some "5") (some "yo")
    (some "guest_9") (some "Bob") true 3 11 []
    ⟨5, some 1, some "guest_9", "Bob", "yo"⟩ "guest_9" hp rfl
  exact ⟨hp, H.1, H.2.2.2 1⟩

/-! Claim C1: the diversity-limited history view. -/

theorem pySliceLast_subset {α : Type} (n : Nat) (l : List α) : pySliceLast n l ⊆ l := by
  unfold pySliceLast
  split
  · exact fun x hx => hx
  · exact List.drop_subset _ l

theorem length_pySliceLast_le {α : Type} {n : Nat} (hn : n ≠ 0) (l : List α) :
    (pySliceLast n l).length ≤ n := by
  unfold pySliceLast
  rw [if_neg hn, List.length_drop]
  omega

theorem groupInsert_keys (k : UV) (m : MsgDict) (gs : List (UV × List MsgDict)) :
    (groupInsert k m gs).map Prod.fst
      = if k ∈ gs.map Prod.fst then gs.map Prod.fst else gs.map Prod.fst ++ [k] := by
  induction gs with
  | nil => simp [groupInsert]
  | cons p t ih =>
    by_cases h : p.1 = k
    · simp [groupInsert, h]
    · by_cases hk : k ∈ t.map Prod.fst
      · simp [groupInsert, h, ih, hk]
      · have hne : ¬ k = p.1 := fun hh => h hh.symm
        simp [groupInsert, h, ih, hk, hne]

theorem groupInsert_pairs {k : UV} {m : MsgDict} (hm : m.user_id = k) :
    ∀ gs : List (UV × List MsgDict),
      (∀ p ∈ gs, ∀ x ∈ p.2, x.user_id = p.1) →
      ∀ p ∈ groupInsert k m gs, ∀ x ∈ p.2, x.user_id = p.1 := by
  intro gs
  induction gs with
  | nil =>
    intro _ p hp x hx
    simp only [groupInsert, List.mem_singleton] at hp
    subst hp
    simp only [List.mem_singleton] at hx
    subst hx
    exact hm
  | cons q t ih =>
    intro h p hp x hx
    by_cases hq : q.1 = k
    · simp only [groupInsert, if_pos hq] at hp
      rcases List.mem_cons.mp hp with rfl | hp2
      · rcases List.mem_append.mp hx with hx2 | hx2
        · exact h q (List.mem_cons_self q t) x hx2
        · simp only [List.mem_singleton] at hx2
          subst hx2
          rw [hm, hq]
      · exact h p (List.mem_cons_of_mem q hp2) x hx
    · simp only [groupInsert, if_neg hq] at hp
      rcases List.mem_cons.mp hp with rfl | hp2
      · exact h p (List.mem_cons_self p t) x hx
      · exact ih (fun r hr => h r (List.mem_cons_of_mem q hr)) p hp2 x hx

theorem groupOK_insert {k : UV} {m : MsgDict} {gs : List (UV × List MsgDict)}
    (hm : m.user_id = k) (h : GroupOK gs) : GroupOK (groupInsert k m gs) := by
  refine ⟨?_, groupInsert_pairs hm gs h.2⟩
  rw [groupInsert_keys k m gs]
  by_cases hk : k ∈ gs.map Prod.fst
  · rw [if_pos hk]
    exact h.1
  · rw [if_neg hk]
    simp [List.nodup_append, h.1, hk]

theorem groupByUser_ok (l : List MsgDict) : GroupOK (groupByUser l) := by
  have aux : ∀ (l2 : List MsgDict) (acc : List (UV × List MsgDict)), GroupOK acc →
      GroupOK (l2.foldl (fun acc m => groupInsert m.user_id m acc) acc) := by
    intro l2
    induction l2 with
    | nil => intro acc h; exact h
    | cons m t ih => intro acc h; exact ih _ (groupOK_insert rfl h)
  exact aux l [] ⟨by simp, by simp⟩

theorem countP_le_groups (u : UV) (P : Nat) (hP : P ≠ 0) :
    ∀ gs : List (UV × List MsgDict), GroupOK gs →
      ((gs.flatMap (fun p => pySliceLast P (sortByTs p.2))).countP
        (fun m => decide (m.user_id = u))) ≤ P := by
  intro gs
  induction gs with
  | nil => intro _; simp
  | cons q t ih =>
    intro h
    have hkeys : (q.1 :: t.map Prod.fst).Nodup := by simpa using h.1
    have hOKt : GroupOK t :=
      ⟨(List.nodup_cons.mp hkeys).2, fun p hp => h.2 p (List.mem_cons_of_mem q hp)⟩
    rw [List.flatMap_cons, List.countP_append]
    by_cases hu : q.1 = u
    · have hrest : (t.flatMap (fun p => pySliceLast P (sortByTs p.2))).countP
          (fun m => decide (m.user_id = u)) = 0 := by
        rw [List.countP_eq_zero]
        intro x hx
        simp only [List.mem_flatMap] at hx
        obtain ⟨p, hp, hxp⟩ := hx
        have hx3 : x ∈ p.2 :=
          (List.perm_insertionSort _ p.2).subset (pySliceLast_subset P _ hxp)
        have hxid := h.2 p (List.mem_cons_of_mem q hp) x hx3
        have hpne : p.1 ≠ u := by
          intro hpe
          have hq1 : q.1 ∉ t.map Prod.fst := (List.nodup_cons.mp hkeys).1
          exact hq1 (by rw [hu, ← hpe]; exact List.mem_map_of_mem Prod.fst hp)
        simp [hxid, hpne]
      rw [hrest]
      have hcount : ((pySliceLast P (sortByTs q.2)).countP
          (fun m => decide (m.user_id = u))) ≤ P :=
        le_trans (List.countP_le_length _) (length_pySliceLast_le hP _)
      omega
    · have hfirst : ((pySliceLast P (sortByTs q.2)).countP
          (fun m => decide (m.user_id = u))) = 0 := by
        rw [List.countP_eq_zero]
        intro x hx
        have hx2 : x ∈ q.2 :=
          (List.perm_insertionSort _ q.2).subset (pySliceLast_subset P _ hx)
        have hxid := h.2 q (List.mem_cons_self q t) x hx2
        simp [hxid, hu]
      rw [hfirst]
      simpa using ih hOKt

/-- Claim C1: for positive caps G and P, the diversity-limited history view
holds at most G messages in total and at most P messages from any single
sender, whatever the cached room history contains. -/
theorem c1_diversity_limits (cache : List MsgDict) (G P : Nat)
    (hG : 0 < G) (hP : 0 < P) :
    (get_chat_history_with_user_limit cache G P).length ≤ G ∧
    ∀ u : UV, ((get_chat_history_with_user_limit cache G P).countP
      (fun m => decide (m.user_id = u))) ≤ P := by
  have hflat : ∀ gs : List (UV × List MsgDict),
      gs.foldl (fun acc p => acc ++ pySliceLast P (sortByTs p.2)) []
        = gs.flatMap (fun p => pySliceLast P (sortByTs p.2)) := by
    intro gs
    simpa using foldl_append_init (fun p => pySliceLast P (sortByTs p.2)) gs []
  simp only [get_chat_history_with_user_limit]
  rw [hflat]
  have hcnt : ∀ u : UV,
      (((groupByUser (cache.drop (cache.length - 1000))).flatMap
        (fun p => pySliceLast P (sortByTs p.2))).countP
          (fun m => decide (m.user_id = u))) ≤ P :=
    fun u => countP_le_groups u P (by omega) _
      (groupByUser_ok (cache.drop (cache.length - 1000)))
  have hperm : List.Perm
      (sortByTs ((groupByUser (cache.drop (cache.length - 1000))).flatMap
        (fun p => pySliceLast P (sortByTs p.2))))
      ((groupByUser (cache.drop (cache.length - 1000))).flatMap
        (fun p => pySliceLast P (sortByTs p.2))) :=
    List.perm_insertionSort _ _
  constructor
  · split
    · rename_i hlen
      simp only [pySliceLast]
      rw [if_neg (by omega : ¬ G = 0), List.length_drop]
      omega
    · rename_i hlen
      omega
  · intro u
    split
    · have hsub : (pySliceLast G (sortByTs
          ((groupByUser (cache.drop (cache.length - 1000))).flatMap
            (fun p => pySliceLast P (sortByTs p.2))))).countP
            (fun m => decide (m.user_id = u))
          ≤ (sortByTs ((groupByUser (cache.drop (cache.length - 1000))).flatMap
            (fun p => pySliceLast P (sortByTs p.2)))).countP
            (fun m => decide (m.user_id = u)) := by
        simp only [pySliceLast]
        rw [if_neg (by omega : ¬ G = 0)]
        exact (List.drop_sublist _ _).countP_le _
      refine le_trans hsub ?_
      rw [hperm.countP_eq]
      exact hcnt u
    · rw [hperm.countP_eq]
      exact hcnt u

/-- Instance of claim C1: one sender contributing all three cached
messages, caps G = 2 and P = 1. -/
theorem c1_diversity_limits_witness :
    (0 < 2) ∧ (0 < 1) ∧
      (get_chat_history_with_user_limit [wit1, wit2, wit3] 2 1).length ≤ 2 ∧
      ((get_chat_history_with_user_limit [wit1, wit2, wit3] 2 1).countP
        (fun m => decide (m.user_id = UV.istr "g"))) ≤ 1 := by
  have H := c1_diversity_limits [wit1, wit2, wit3] 2 1 (by decide) (by decide)
  exact ⟨by decide, by decide, H.1, H.2 (UV.istr "g")⟩

end MeetingChat
